import Mathlib

/-!
Verification development for the Stock-Testing simulation server.

The definitions below are a shallow embedding of the JavaScript source:

* `src/js/enhanced-simulator.js` — the `EnhancedSimulator` class
  (price ticks, buy/sell, mode state, custom-mode week budget);
* `src/server.js` — the bot-order path (`POST /api/bot/order`), the
  save-preset routes, and the WebSocket subscription/broadcast handlers;
* `src/chat-manager.js` — the in-memory chat pagination.

JS numbers are modelled as rationals (`ℚ`), JS objects used as
string-keyed dictionaries as insertion-ordered association lists, and
every `Math.random()` call as an explicit parameter in `[0, 1)`.
-/

/-! ## Insertion-ordered association lists (JS object / `Map` semantics)

A JS object literal keyed by non-numeric strings preserves insertion
order; property update keeps the position, `delete` removes the entry,
and assignment to a fresh key appends.  `aget`, `aset` and `aerase`
model exactly these three primitives. -/

def aget {α : Type} : List (String × α) → String → Option α
  | [], _ => none
  | (k, v) :: rest, key => if k = key then some v else aget rest key

def aset {α : Type} : List (String × α) → String → α → List (String × α)
  | [], key, v => [(key, v)]
  | (k, w) :: rest, key, v =>
      if k = key then (key, v) :: rest else (k, w) :: aset rest key v

def aerase {α : Type} : List (String × α) → String → List (String × α)
  | [], _ => []
  | (k, w) :: rest, key => if k = key then rest else (k, w) :: aerase rest key

/-! ## Catalog, configuration and mode tables
(`src/unnamed/part_006`, the `stocks-data.js` constants) -/

inductive StockType
  | growth | dividend | etf | bond
deriving DecidableEq, Repr

inductive RiskLevel
  | conservative | moderate | aggressive
deriving DecidableEq, Repr

inductive Difficulty
  | easy | medium | hard
deriving DecidableEq, Repr

inductive GameMode
  | classic | challenge | daytrader | portfolio | custom
deriving DecidableEq, Repr

/-- `RISK_LEVELS[...].multiplier`. -/
def riskMultiplier : RiskLevel → ℚ
  | .conservative => 1/2
  | .moderate => 1
  | .aggressive => 9/5

/-- `DIFFICULTIES[...].volatilityReduction`. -/
def volatilityReduction : Difficulty → ℚ
  | .easy => 3/5
  | .medium => 1
  | .hard => 13/10

/-- One `REAL_STOCKS` catalog entry. -/
structure CatalogStock where
  symbol : String
  name : String
  basePrice : ℚ
  type : StockType
  volatility : ℚ
deriving DecidableEq, Repr

/-- The `config` object of `EnhancedSimulator` (string-valued fields are
modelled by the enumerations the tables define them over). -/
structure SimConfig where
  startingCapital : ℚ
  riskLevel : RiskLevel
  mode : GameMode
  difficulty : Difficulty
  weeks : ℕ
deriving DecidableEq, Repr

/-! ## EnhancedSimulator state (`src/js/enhanced-simulator.js`) -/

/-- A live stock inside the simulator (`initializeStocks` output). -/
structure Stock where
  symbol : String
  name : String
  type : StockType
  price : ℚ
  openPrice : ℚ
  volatility : ℚ
deriving DecidableEq, Repr

inductive TradeKind
  | BUY | SELL
deriving DecidableEq, Repr

/-- An entry of `this.trades` (wall timestamp omitted; `simDay` is the
simulated date as a day offset from 2024-01-01). -/
structure Trade where
  type : TradeKind
  symbol : String
  shares : ℚ
  price : ℚ
  simDay : ℕ
deriving DecidableEq, Repr

/-- `this.modeState`.  The source stores a plain object whose fields
depend on the mode; fields of inactive modes are absent, modelled here
by defaulted fields (`targetAllocation` of portfolio mode is a constant
table never read by the operations and is omitted). -/
structure ModeState where
  dailyTarget : ℚ := 0
  daysCompleted : ℕ := 0
  streakDays : ℕ := 0
  totalDayTrades : ℕ := 0
  maxDayTrades : ℕ := 0
  startDayCount : ℤ := 0
deriving DecidableEq, Repr

/-- The mutable state of one `EnhancedSimulator` instance.  `simDay` is
`this.simulatedTime` counted in whole days since the fixed start date
2024-01-01 (the constructor sets `new Date(2024, 0, 1)` and ticks call
`setDate(getDate() + timeSkipMultiplier)`). -/
structure EnhancedSimulator where
  config : SimConfig
  cash : ℚ
  holdings : List (String × ℚ)
  stocks : List Stock
  priceHistory : List (String × List ℚ)
  simDay : ℕ
  trades : List Trade
  initialCapital : ℚ
  modeState : ModeState
deriving DecidableEq, Repr

/-- `initializeModeState()`. -/
def initializeModeState (config : SimConfig) : ModeState :=
  match config.mode with
  | .challenge => { dailyTarget := config.startingCapital * (5/100) }
  | .daytrader => { totalDayTrades := 0, maxDayTrades := 3 }
  | _ => {}

/-- `initializeStocks()`: price starts at `basePrice`; volatility is
scaled by the risk multiplier and the difficulty reduction; each
symbol's history starts as the one-element list `[price]`. -/
def initializeStocks (catalog : List CatalogStock) (config : SimConfig) :
    List Stock × List (String × List ℚ) :=
  let stocks := catalog.map (fun c =>
    { symbol := c.symbol
      name := c.name
      type := c.type
      price := c.basePrice
      openPrice := c.basePrice
      volatility := c.volatility * riskMultiplier config.riskLevel *
        volatilityReduction config.difficulty })
  (stocks, stocks.foldl (fun h st => aset h st.symbol [st.price]) [])

/-- `getDayCount()`: day index since 2024-01-01 inclusive
(`Math.floor(diff / 86400000) + 1`, with `diff` exactly `simDay` days). -/
def getDayCount (s : EnhancedSimulator) : ℤ :=
  (s.simDay : ℤ) + 1

/-- The `EnhancedSimulator` constructor over a given catalog. -/
def mkSimulator (catalog : List CatalogStock) (config : SimConfig) : EnhancedSimulator :=
  let init := initializeStocks catalog config
  let base : EnhancedSimulator :=
    { config := config
      cash := config.startingCapital
      holdings := []
      stocks := init.1
      priceHistory := init.2
      simDay := 0
      trades := []
      initialCapital := config.startingCapital
      modeState := initializeModeState config }
  if config.mode = .custom then
    { base with modeState := { base.modeState with startDayCount := getDayCount base } }
  else base

/-- `weeksRemaining()`: `none` models the `Infinity` returned outside
custom mode. -/
def weeksRemaining (s : EnhancedSimulator) : Option ℤ :=
  if s.config.mode = .custom then
    let elapsedDays := getDayCount s - s.modeState.startDayCount
    let weeksUsed := elapsedDays.fdiv 7
    some (max ((s.config.weeks : ℤ) - weeksUsed) 0)
  else none

/-- The guard opening `updatePrices`:
`this.config.mode === 'custom' && this.weeksRemaining() <= 0`
(`Infinity <= 0` is false, so the `none` branch is false). -/
def customExhausted (s : EnhancedSimulator) : Bool :=
  s.config.mode = .custom &&
    (match weeksRemaining s with
     | some w => w ≤ 0
     | none => false)

/-- The `Math.random()` draws one stock consumes in one `updatePrices`
pass, in source order: `u1` for `randomChange`, `u2` for the 0.5% gap
test, `u3` for the big-gap magnitude, `u4` for the 2% gap test, `u5`
for the small-gap magnitude.  All draws lie in `[0, 1)`. -/
structure TickNoise where
  u1 : ℚ
  u2 : ℚ
  u3 : ℚ
  u4 : ℚ
  u5 : ℚ
deriving DecidableEq, Repr

/-- The new price computed for one stock inside the `forEach` of
`updatePrices`, given the symbol's current history. -/
def tickPrice (hist : List ℚ) (stock : Stock) (n : TickNoise)
    (timeSkipMultiplier : ℕ) : ℚ :=
  let previousPrice := stock.price
  let typeVolatility := if stock.type = .bond then 2/1000 else stock.volatility
  let randomChange := (n.u1 - 1/2) * typeVolatility * previousPrice * timeSkipMultiplier
  let drift := previousPrice * (5/100000) * timeSkipMultiplier
  let momentum :=
    if 1 < hist.length then
      (hist.getD (hist.length - 1) 0 - hist.getD (hist.length - 2) 0) * (3/10)
    else 0
  let spike : ℚ :=
    if n.u2 < 5/1000 then 1 + (n.u3 - 1/2) * (4/10)
    else if n.u4 < 2/100 then 1 + (n.u5 - 1/2) * (1/10)
    else 1
  max (previousPrice * spike + randomChange + drift + momentum) (1/100)

/-- The body of the `forEach` over `this.stocks` in `updatePrices`:
one stock is re-priced and its history entry extended; the accumulator
threads the rebuilt stock array and the history map.  The initial-state
invariant guarantees every stock's history entry exists, so the
`getD []` default is never hit. -/
def updateStep (noise : String → TickNoise) (timeSkipMultiplier : ℕ)
    (acc : List Stock × List (String × List ℚ)) (stock : Stock) :
    List Stock × List (String × List ℚ) :=
  let hist := (aget acc.2 stock.symbol).getD []
  let newPrice := tickPrice hist stock (noise stock.symbol) timeSkipMultiplier
  (acc.1 ++ [{ stock with price := newPrice }],
   aset acc.2 stock.symbol (hist ++ [newPrice]))

/-- `updatePrices(timeSkipMultiplier)`: unless the custom-mode budget
is exhausted, every stock is re-priced in array order and the simulated
date moves forward by `timeSkipMultiplier` days. -/
def updatePrices (s : EnhancedSimulator) (noise : String → TickNoise)
    (timeSkipMultiplier : ℕ) : EnhancedSimulator :=
  if customExhausted s then s
  else
    let r := s.stocks.foldl (updateStep noise timeSkipMultiplier) ([], s.priceHistory)
    { s with stocks := r.1, priceHistory := r.2,
             simDay := s.simDay + timeSkipMultiplier }

/-- The `{success, message}` object the order methods return. -/
structure TradeResult where
  success : Bool
  message : String
deriving DecidableEq, Repr

/-- `buy(symbol, shares)`.  Checks run before any mutation: unknown
symbol, insufficient cash, then the day-trader cap (which also
increments the counter when it passes). -/
def buy (s : EnhancedSimulator) (symbol : String) (shares : ℚ) :
    EnhancedSimulator × TradeResult :=
  match s.stocks.find? (fun st => st.symbol == symbol) with
  | none => (s, ⟨false, "Stock not found"⟩)
  | some stock =>
    let cost := stock.price * shares
    if s.cash < cost then
      (s, ⟨false, "Insufficient cash"⟩)
    else if s.config.mode = .daytrader ∧
        s.modeState.maxDayTrades ≤ s.modeState.totalDayTrades then
      (s, ⟨false, "Day trade limit reached (3 per day)"⟩)
    else
      let ms := if s.config.mode = .daytrader then
          { s.modeState with totalDayTrades := s.modeState.totalDayTrades + 1 }
        else s.modeState
      ({ s with
          cash := s.cash - cost
          holdings := aset s.holdings symbol ((aget s.holdings symbol).getD 0 + shares)
          modeState := ms
          trades := s.trades ++ [⟨.BUY, symbol, shares, stock.price, s.simDay⟩] },
       ⟨true, "Bought"⟩)

/-- `sell(symbol, shares)`.  Faithful to the source's statement order:
cash is credited and the holding decremented (and deleted at zero)
BEFORE the day-trader cap is checked, so a cap rejection returns
`success: false` on the already-mutated state and skips the trade
record.  (When the symbol is absent the mutation line would produce
`NaN` in JS; that corner is reachable only with `shares ≤ 0`.) -/
def sell (s : EnhancedSimulator) (symbol : String) (shares : ℚ) :
    EnhancedSimulator × TradeResult :=
  match s.stocks.find? (fun st => st.symbol == symbol) with
  | none => (s, ⟨false, "Stock not found"⟩)
  | some stock =>
    let held := (aget s.holdings symbol).getD 0
    if held < shares then
      (s, ⟨false, "Insufficient shares"⟩)
    else
      let proceeds := stock.price * shares
      let newHeld := held - shares
      let holdings1 := aset s.holdings symbol newHeld
      let holdings2 := if newHeld = 0 then aerase holdings1 symbol else holdings1
      let s1 := { s with cash := s.cash + proceeds, holdings := holdings2 }
      if s1.config.mode = .daytrader ∧
          s1.modeState.maxDayTrades ≤ s1.modeState.totalDayTrades then
        (s1, ⟨false, "Day trade limit reached"⟩)
      else
        let ms := if s1.config.mode = .daytrader then
            { s1.modeState with totalDayTrades := s1.modeState.totalDayTrades + 1 }
          else s1.modeState
        ({ s1 with
            modeState := ms
            trades := s1.trades ++ [⟨.SELL, symbol, shares, stock.price, s1.simDay⟩] },
         ⟨true, "Sold"⟩)

/-- One step of the cost-basis recomputation `getPortfolioDetails`
performs over the symbol's trades: a BUY adds `price × shares` to the
basis, a SELL removes `(costBasis / sharesOwned) × shares`
(average-cost). -/
def costBasisFold (acc : ℚ × ℚ) (t : Trade) : ℚ × ℚ :=
  if t.type = .BUY then (acc.1 + t.price * t.shares, acc.2 + t.shares)
  else (acc.1 - (acc.1 / acc.2) * t.shares, acc.2 - t.shares)

/-- The `(costBasis, sharesOwned)` pair `getPortfolioDetails` derives
for one symbol from the trade log. -/
def costBasisFromTrades (trades : List Trade) (symbol : String) : ℚ × ℚ :=
  (trades.filter (fun t => t.symbol == symbol)).foldl costBasisFold (0, 0)

/-! ## Bot-order path (`src/server.js`, `POST /api/bot/order`) -/

/-- A value of the server-side `portfolio.holdings` map. -/
structure ServerHolding where
  symbol : String
  quantity : ℚ
  costBasis : ℚ
  currentPrice : ℚ
deriving DecidableEq, Repr

/-- A bot portfolio as registered by `POST /api/bot/register`
(`totalValue`, `realizedGains`, `unrealizedGains` are never read by the
order path and are omitted). -/
structure ServerPortfolio where
  cash : ℚ
  holdings : List (String × ServerHolding)
deriving DecidableEq, Repr

inductive OrderAction
  | buy | sell
deriving DecidableEq, Repr

/-- The order outcome the route reports. -/
structure OrderOutcome where
  filled : Bool
  commission : ℚ
  rejectReason : Option String
deriving DecidableEq, Repr

/-- The fill/execute logic of `POST /api/bot/order` after validation:
`price = limit_price || market.price` (JS `||`, so a zero limit price
falls back to the market price), `commission = totalCost × 0.001`; a
buy fills when `cash ≥ totalCost + commission` and adds `totalCost` to
the holding's `costBasis`; a sell fills when the holding exists with
`quantity ≥ q`, credits `totalCost − commission`, decrements the
quantity and deletes the entry at zero — its `costBasis` is untouched. -/
def placeOrder (p : ServerPortfolio) (marketPrice : ℚ) (symbol : String)
    (action : OrderAction) (quantity : ℚ) (limitPrice : Option ℚ) :
    ServerPortfolio × OrderOutcome :=
  let price := match limitPrice with
    | some lp => if lp = 0 then marketPrice else lp
    | none => marketPrice
  let totalCost := price * quantity
  let commission := totalCost * (1/1000)
  match action with
  | .buy =>
    if totalCost + commission ≤ p.cash then
      let holdings' := match aget p.holdings symbol with
        | some h => aset p.holdings symbol
            { h with quantity := h.quantity + quantity,
                     costBasis := h.costBasis + totalCost }
        | none => aset p.holdings symbol
            ⟨symbol, quantity, totalCost, price⟩
      ({ cash := p.cash - (totalCost + commission), holdings := holdings' },
       ⟨true, commission, none⟩)
    else (p, ⟨false, commission, some "Insufficient cash"⟩)
  | .sell =>
    match aget p.holdings symbol with
    | some h =>
      if quantity ≤ h.quantity then
        let h' := { h with quantity := h.quantity - quantity }
        let holdings1 := aset p.holdings symbol h'
        let holdings2 := if h'.quantity = 0 then aerase holdings1 symbol else holdings1
        ({ cash := p.cash + (totalCost - commission), holdings := holdings2 },
         ⟨true, commission, none⟩)
      else (p, ⟨false, commission, some "Insufficient shares"⟩)
    | none => (p, ⟨false, commission, some "Insufficient shares"⟩)

/-! ## WebSocket fabric (`src/server.js`) -/

/-- A connected WebSocket client as the broadcast loop sees it.
`subscribedChannels` is this client's entry of the `subscriptions`
map; `ownedBots` records which bot sessions belong to this client — a
linkage the server itself never establishes, carried here only so the
ownership property can be stated. -/
structure WsClient where
  clientId : String
  readyStateOpen : Bool
  subscribedChannels : List String
  ownedBots : List String
deriving DecidableEq, Repr

/-- The handshake outcome of `wss.on('connection', (ws) => ...)`: the
handler never inspects a credential and never closes the socket, so
every connection is accepted whatever bearer token (if any) was
presented. -/
def wsConnectionAccepted (bearerToken : Option String) : Bool :=
  let _ := bearerToken
  true

/-- `subscriptions.get(clientId).add(channel)` — a `Set`, modelled as
append-if-absent. -/
def addChannel (channels : List String) (channel : String) : List String :=
  if channel ∈ channels then channels else channels ++ [channel]

/-- The result of `handleSubscribe`: the updated subscription map and
whether a `subscribed` confirmation frame was sent. -/
structure SubscribeOutcome where
  subs : List (String × List String)
  confirmed : Bool
deriving DecidableEq, Repr

/-- `handleSubscribe(clientId, ws, data)`: registers the channel for
the client and always sends the `subscribed` confirmation; no role or
credential is consulted (the user's role is a parameter here only to
show it is ignored). -/
def handleSubscribe (subs : List (String × List String)) (clientId : String)
    (channel : String) (userRole : Option String) : SubscribeOutcome :=
  let _ := userRole
  let current := (aget subs clientId).getD []
  ⟨aset subs clientId (addChannel current channel), true⟩

/-- The order object `POST /api/bot/order` builds and hands to
`broadcastOrderUpdate` (timestamps and commission omitted). -/
structure BotOrder where
  id : String
  bot_id : String
  symbol : String
  action : OrderAction
  quantity : ℚ
  price : ℚ
  status : String
deriving DecidableEq, Repr

/-- `broadcastOrderUpdate(orderId, order)` sends the order-update frame
over `wss.clients.forEach`: every client whose socket is open receives
it, whatever `order.bot_id` is.  Returns the ids of the receiving
clients. -/
def broadcastOrderUpdate (clients : List WsClient) (orderId : String)
    (order : BotOrder) : List String :=
  let _ := (orderId, order)
  (clients.filter (fun c => c.readyStateOpen)).map (fun c => c.clientId)

/-! ## Chat pagination (`src/chat-manager.js`) -/

/-- One chat message (`timestamp` as a numeric wall clock). -/
structure ChatMessage where
  messageId : String
  userId : String
  displayName : String
  text : String
  timestamp : ℕ
deriving DecidableEq, Repr

/-- `arr.slice(-m)` for a nonnegative `m`: the last `min m len`
elements, except that `-0` is `0` and yields the whole array. -/
def jsSliceLast {α : Type} (m : ℕ) (l : List α) : List α :=
  if m = 0 then l else l.drop (l.length - m)

/-- The pair `getInMemoryMessages(limit, offset)` returns: the log is
copied, stably sorted ascending by timestamp (the JS comparator
`a.timestamp - b.timestamp`), then `.slice(-limit - offset)` and
`.slice(-limit)` are applied; `total` is the log length. -/
def getInMemoryMessages (log : List ChatMessage) (limit offset : ℕ) :
    List ChatMessage × ℕ :=
  let sorted := log.insertionSort (fun a b => a.timestamp ≤ b.timestamp)
  (jsSliceLast limit (jsSliceLast (limit + offset) sorted), log.length)

/-! ## Save presets (`src/server.js`, `/api/saves` routes, in-memory path) -/

/-- One preset slot (`{data, createdAt, updatedAt}`); the snapshot body
is opaque here. -/
structure PresetSlot where
  data : String
  createdAt : ℕ
  updatedAt : ℕ
deriving DecidableEq, Repr

/-- A `gameSaves` record.  `activePreset` is a string or `null`. -/
structure SaveRecord where
  code : String
  presets : List (String × PresetSlot)
  activePreset : Option String
  lastUpdatedAt : ℕ
deriving DecidableEq, Repr

/-- `POST /api/saves/:code` (in-memory path): upsert the preset —
keeping the original `createdAt` when it exists — and set
`activePreset` to the stored name. -/
def savePreset (rec : SaveRecord) (name : String) (gameState : String)
    (now : ℕ) : SaveRecord :=
  let createdAt := match aget rec.presets name with
    | some slot => slot.createdAt
    | none => now
  { rec with
      presets := aset rec.presets name ⟨gameState, createdAt, now⟩
      activePreset := some name
      lastUpdatedAt := now }

/-- `DELETE /api/saves/:code/preset/:presetName` (in-memory path):
`none` models the 404 for a missing preset; when the deleted preset was
active, `activePreset` becomes `Object.keys(save.presets)[0]` — the
FIRST remaining key in object insertion order — or `null` when no
presets remain.  (JS would order integer-like preset names first; such
names are not exercised here.) -/
def deletePreset (rec : SaveRecord) (name : String) : Option SaveRecord :=
  match aget rec.presets name with
  | none => none
  | some _ =>
    let presets' := aerase rec.presets name
    let active' := if rec.activePreset = some name then
        (presets'.map Prod.fst).head?
      else rec.activePreset
    some { rec with presets := presets', activePreset := active' }

/-! ## Concrete fixtures used by several claims -/

/-- A one-stock catalog in the shape of a `REAL_STOCKS` entry. -/
def demoCatalog : List CatalogStock :=
  [⟨"AAPL", "Apple Inc.", 100, .growth, 1/50⟩]

/-- A noise assignment with a centred random draw and no gap events. -/
def calmNoise : String → TickNoise :=
  fun _ => ⟨1/2, 1, 1/2, 1, 1/2⟩

/-- A day-trader session that has already used its three trades and
holds one share of AAPL (priced 10) with 100 cash. -/
def daytraderAtLimit : EnhancedSimulator :=
  { config := ⟨25000, .moderate, .daytrader, .medium, 0⟩
    cash := 100
    holdings := [("AAPL", 1)]
    stocks := [⟨"AAPL", "Apple Inc.", .growth, 10, 100, 1/50⟩]
    priceHistory := [("AAPL", [100, 10])]
    simDay := 1
    trades := [⟨.BUY, "AAPL", 1, 10, 0⟩, ⟨.BUY, "AAPL", 1, 10, 0⟩,
               ⟨.SELL, "AAPL", 1, 10, 0⟩]
    initialCapital := 25000
    modeState := { totalDayTrades := 3, maxDayTrades := 3 } }

/-- The day-trader scenario of C4: a fresh daytrader session. -/
def dtSim : EnhancedSimulator :=
  mkSimulator demoCatalog ⟨25000, .moderate, .daytrader, .medium, 0⟩

def dtSim1 : EnhancedSimulator := (buy dtSim "AAPL" 1).1

def dtSim2 : EnhancedSimulator := (buy dtSim1 "AAPL" 1).1

def dtSim3 : EnhancedSimulator := (buy dtSim2 "AAPL" 1).1

/-- `dtSim3` after the clock advances one simulated day. -/
def dtSimNextDay : EnhancedSimulator := updatePrices dtSim3 calmNoise 1

/-- A custom-mode session whose week budget (zero weeks) is consumed at
creation. -/
def customDoneSim : EnhancedSimulator :=
  mkSimulator demoCatalog ⟨10000, .moderate, .custom, .medium, 0⟩

/-! ## C2 and C3: push-channel fixtures -/

/-- A connected client that owns no bot session and subscribed to
nothing. -/
def strangerClient : WsClient := ⟨"c9", true, [], []⟩

/-- A filled order belonging to `bot_1`. -/
def demoOrder : BotOrder :=
  ⟨"order_1000", "bot_1", "AAPL", .buy, 1, 100, "filled"⟩

/-! ## C9: preset deletion -/

/-- A save record whose presets were stored in the insertion order
beta, alpha, carol, with carol active. -/
def savesRec : SaveRecord :=
  ⟨"ABCDEFGHI",
   [("beta", ⟨"g1", 1, 1⟩), ("alpha", ⟨"g2", 2, 2⟩), ("carol", ⟨"g3", 3, 3⟩)],
   some "carol", 3⟩

/-! ## C8: chat pagination -/

def msgA : ChatMessage := ⟨"m1", "u1", "Ann", "first", 1⟩

def msgB : ChatMessage := ⟨"m2", "u2", "Bob", "second", 2⟩

def msgC : ChatMessage := ⟨"m3", "u3", "Cal", "third", 3⟩

/-! ## C5: cost basis on the bot-order sell path -/

/-- A bot portfolio holding 2 AAPL shares bought for 20 in total. -/
def botSellPortfolio : ServerPortfolio :=
  ⟨1000, [("AAPL", ⟨"AAPL", 2, 20, 10⟩)]⟩

/-- A bot portfolio that already holds 1 AAPL share with basis 10. -/
def botPriorPortfolio : ServerPortfolio :=
  ⟨1000, [("AAPL", ⟨"AAPL", 1, 10, 10⟩)]⟩

/-- A classic-mode session with one stock priced 10 and 1000 cash. -/
def classicSim : EnhancedSimulator :=
  { config := ⟨25000, .moderate, .classic, .medium, 0⟩
    cash := 1000, holdings := []
    stocks := [⟨"AAPL", "Apple Inc.", .growth, 10, 100, 1/50⟩]
    priceHistory := [("AAPL", [10])]
    simDay := 0, trades := [], initialCapital := 25000
    modeState := {} }

/-- An empty bot portfolio with 1000 cash. -/
def botEmptyPortfolio : ServerPortfolio := ⟨1000, []⟩

/-! ## C10: price history invariant -/

/-- The per-stock slice of the claimed invariant: every entry of the
history this symbol maps to is strictly positive and the last entry is
the stock price. -/
def stockHistOk (hist : List (String × List ℚ)) (st : Stock) : Prop :=
  (∀ p ∈ (aget hist st.symbol).getD [], 0 < p) ∧
  ((aget hist st.symbol).getD []).getLast? = some st.price

/-- The invariant over a whole simulator state. -/
def histInv (s : EnhancedSimulator) : Prop :=
  ∀ st ∈ s.stocks, stockHistOk s.priceHistory st

/-- Any number of ticks, each with its own noise and time skip. -/
def applyTicks (s : EnhancedSimulator)
    (ticks : List ((String → TickNoise) × ℕ)) : EnhancedSimulator :=
  ticks.foldl (fun t p => updatePrices t p.1 p.2) s

/-- Positivity of every entry of every stored price history, with no
assumption on the symbols. -/
def allHistPos (hist : List (String × List ℚ)) : Prop :=
  ∀ kv ∈ hist, ∀ p ∈ kv.2, 0 < p

/-- The NVDA fragment of the shipped `REAL_STOCKS` catalog: the symbol
appears twice (part_006 lines 11 and 141), with the same base price
875.45 and volatility 0.035. -/
def nvdaDupCatalog : List CatalogStock :=
  [⟨"NVDA", "NVIDIA Corp.", 87545/100, .growth, 35/1000⟩,
   ⟨"NVDA", "NVIDIA (Gaming)", 87545/100, .growth, 35/1000⟩]

/-- A session over the duplicated-NVDA catalog. -/
def nvdaDupSim : EnhancedSimulator :=
  mkSimulator nvdaDupCatalog ⟨25000, .moderate, .classic, .medium, 0⟩

/-- That session after one calm tick: both NVDA entries are re-priced
against, and push to, the single shared history list. -/
def nvdaDupTicked : EnhancedSimulator := updatePrices nvdaDupSim calmNoise 1

@[simp] theorem aget_nil {α : Type} (key : String) :
    aget ([] : List (String × α)) key = none := rfl

@[simp] theorem aget_cons {α : Type} (k : String) (v : α) (rest : List (String × α))
    (key : String) :
    aget ((k, v) :: rest) key = if k = key then some v else aget rest key := rfl

theorem aget_aset_self {α : Type} (l : List (String × α)) (key : String) (v : α) :
    aget (aset l key v) key = some v := by
  induction l with
  | nil => simp [aget, aset]
  | cons hd tl ih =>
    obtain ⟨k, w⟩ := hd
    by_cases h : k = key <;> simp [aset, aget, h, ih]

theorem aget_aset_ne {α : Type} (l : List (String × α)) (key key' : String) (v : α)
    (h : key ≠ key') : aget (aset l key v) key' = aget l key' := by
  induction l with
  | nil => simp [aget, aset, h]
  | cons hd tl ih =>
    obtain ⟨k, w⟩ := hd
    by_cases hk : k = key
    · subst hk
      simp [aset, aget, h]
    · simp [aset, aget, hk, ih]

theorem aset_aset {α : Type} (l : List (String × α)) (key : String) (v w : α) :
    aset (aset l key v) key w = aset l key w := by
  induction l with
  | nil => simp [aset]
  | cons hd tl ih =>
    obtain ⟨k, u⟩ := hd
    by_cases h : k = key <;> simp [aset, h, ih]

theorem aset_eq_self {α : Type} (l : List (String × α)) (key : String) (v : α)
    (h : aget l key = some v) : aset l key v = l := by
  induction l with
  | nil => simp [aget] at h
  | cons hd tl ih =>
    obtain ⟨k, w⟩ := hd
    by_cases hk : k = key
    · subst hk
      simp [aget] at h
      simp [aset, h]
    · simp [aget, hk] at h
      simp [aset, hk, ih h]

theorem aget_none_aset {α : Type} (l : List (String × α)) (key : String) (v : α)
    (h : aget l key = none) : aset l key v = l ++ [(key, v)] := by
  induction l with
  | nil => simp [aset]
  | cons hd tl ih =>
    obtain ⟨k, w⟩ := hd
    by_cases hk : k = key
    · simp [aget, hk] at h
    · simp [aget, hk] at h
      simp [aset, hk, ih h]

theorem aerase_append_absent {α : Type} (l : List (String × α)) (key : String) (v : α)
    (h : aget l key = none) : aerase (l ++ [(key, v)]) key = l := by
  induction l with
  | nil => simp [aerase]
  | cons hd tl ih =>
    obtain ⟨k, w⟩ := hd
    by_cases hk : k = key
    · simp [aget, hk] at h
    · simp [aget, hk] at h
      simp [aerase, hk, ih h]

theorem aerase_aset_present {α : Type} (l : List (String × α)) (key : String) (v w : α)
    (h : aget l key = some v) : aerase (aset l key w) key = aerase l key := by
  induction l with
  | nil => simp [aget] at h
  | cons hd tl ih =>
    obtain ⟨k, u⟩ := hd
    by_cases hk : k = key
    · subst hk
      simp [aset, aerase]
    · simp [aget, hk] at h
      simp [aset, aerase, hk, ih h]

theorem aget_mem {α : Type} (l : List (String × α)) (key : String) (v : α)
    (h : aget l key = some v) : (key, v) ∈ l := by
  induction l with
  | nil => simp [aget] at h
  | cons hd tl ih =>
    obtain ⟨k, w⟩ := hd
    by_cases hk : k = key
    · subst hk
      simp [aget] at h
      simp [h]
    · simp [aget, hk] at h
      exact List.mem_cons_of_mem _ (ih h)

/-- C1: the claim says a failed order leaves cash, positions, trades and
mode state untouched, and in particular that a sell rejected by the
day-trader limit leaves cash and holdings unchanged.  The code violates
this: `sell` credits the proceeds and removes the holding BEFORE it
checks the day-trader cap, so the rejected sell below returns
`success = false` with cash grown from 100 to 110 and the AAPL position
deleted. -/
theorem sell_daytrader_reject_mutates_state :
    (sell daytraderAtLimit "AAPL" 1).2.success = false ∧
    (sell daytraderAtLimit "AAPL" 1).1.cash = 110 ∧
    daytraderAtLimit.cash = 100 ∧
    (sell daytraderAtLimit "AAPL" 1).1.holdings = [] ∧
    daytraderAtLimit.holdings = [("AAPL", 1)] ∧
    (sell daytraderAtLimit "AAPL" 1).1.trades = daytraderAtLimit.trades := by
  norm_num [sell, daytraderAtLimit, aget, aset, aerase, List.find?]

/-- C4: the claim (and the spec scenario) say the per-day trade counter
resets when the clock crosses into a new simulated day, so a fourth buy
succeeds after a one-day advance.  In the code nothing ever resets
`modeState.totalDayTrades` — `updatePrices` advances the day but leaves
the counter at 3, and the fourth buy still fails. -/
theorem daytrade_counter_never_resets :
    (buy dtSim "AAPL" 1).2.success = true ∧
    (buy dtSim1 "AAPL" 1).2.success = true ∧
    (buy dtSim2 "AAPL" 1).2.success = true ∧
    (buy dtSim3 "AAPL" 1).2.success = false ∧
    dtSimNextDay.simDay = dtSim3.simDay + 1 ∧
    dtSimNextDay.modeState.totalDayTrades = 3 ∧
    (buy dtSimNextDay "AAPL" 1).2.success = false := by
  have h0 : dtSim =
      { config := ⟨25000, .moderate, .daytrader, .medium, 0⟩
        cash := 25000, holdings := []
        stocks := [⟨"AAPL", "Apple Inc.", .growth, 100, 100, 1/50⟩]
        priceHistory := [("AAPL", [100])]
        simDay := 0, trades := [], initialCapital := 25000
        modeState := { maxDayTrades := 3 } } := by
    repeat first
      | simp [dtSim, mkSimulator, initializeStocks, initializeModeState,
          riskMultiplier, volatilityReduction, getDayCount, demoCatalog, aset]
      | norm_num [dtSim, mkSimulator, initializeStocks, initializeModeState,
          riskMultiplier, volatilityReduction, getDayCount, demoCatalog, aset]
  have h1 : buy dtSim "AAPL" 1 =
      ({ config := ⟨25000, .moderate, .daytrader, .medium, 0⟩
         cash := 24900, holdings := [("AAPL", 1)]
         stocks := [⟨"AAPL", "Apple Inc.", .growth, 100, 100, 1/50⟩]
         priceHistory := [("AAPL", [100])]
         simDay := 0, trades := [⟨.BUY, "AAPL", 1, 100, 0⟩]
         initialCapital := 25000
         modeState := { totalDayTrades := 1, maxDayTrades := 3 } },
       ⟨true, "Bought"⟩) := by
    rw [h0]
    repeat first
      | simp [buy, aget, aset, List.find?]
      | norm_num [buy, aget, aset, List.find?]
  have h2 : buy dtSim1 "AAPL" 1 =
      ({ config := ⟨25000, .moderate, .daytrader, .medium, 0⟩
         cash := 24800, holdings := [("AAPL", 2)]
         stocks := [⟨"AAPL", "Apple Inc.", .growth, 100, 100, 1/50⟩]
         priceHistory := [("AAPL", [100])]
         simDay := 0
         trades := [⟨.BUY, "AAPL", 1, 100, 0⟩, ⟨.BUY, "AAPL", 1, 100, 0⟩]
         initialCapital := 25000
         modeState := { totalDayTrades := 2, maxDayTrades := 3 } },
       ⟨true, "Bought"⟩) := by
    simp only [dtSim1]
    rw [h1]
    repeat first
      | simp [buy, aget, aset, List.find?]
      | norm_num [buy, aget, aset, List.find?]
  have h3 : buy dtSim2 "AAPL" 1 =
      ({ config := ⟨25000, .moderate, .daytrader, .medium, 0⟩
         cash := 24700, holdings := [("AAPL", 3)]
         stocks := [⟨"AAPL", "Apple Inc.", .growth, 100, 100, 1/50⟩]
         priceHistory := [("AAPL", [100])]
         simDay := 0
         trades := [⟨.BUY, "AAPL", 1, 100, 0⟩, ⟨.BUY, "AAPL", 1, 100, 0⟩,
                    ⟨.BUY, "AAPL", 1, 100, 0⟩]
         initialCapital := 25000
         modeState := { totalDayTrades := 3, maxDayTrades := 3 } },
       ⟨true, "Bought"⟩) := by
    simp only [dtSim2]
    rw [h2]
    repeat first
      | simp [buy, aget, aset, List.find?]
      | norm_num [buy, aget, aset, List.find?]
  have h4 : updatePrices dtSim3 calmNoise 1 =
      { config := ⟨25000, .moderate, .daytrader, .medium, 0⟩
        cash := 24700, holdings := [("AAPL", 3)]
        stocks := [⟨"AAPL", "Apple Inc.", .growth, 20001/200, 100, 1/50⟩]
        priceHistory := [("AAPL", [100, 20001/200])]
        simDay := 1
        trades := [⟨.BUY, "AAPL", 1, 100, 0⟩, ⟨.BUY, "AAPL", 1, 100, 0⟩,
                   ⟨.BUY, "AAPL", 1, 100, 0⟩]
        initialCapital := 25000
        modeState := { totalDayTrades := 3, maxDayTrades := 3 } } := by
    simp only [dtSim3]
    rw [h3]
    repeat first
      | simp [updatePrices, updateStep, customExhausted, weeksRemaining,
          tickPrice, calmNoise, aget, aset]
      | norm_num [updatePrices, updateStep, customExhausted, weeksRemaining,
          tickPrice, calmNoise, aget, aset]
  refine ⟨?_, ?_, ?_, ?_, ?_, ?_, ?_⟩
  · rw [h1]
  · rw [dtSim1, h1]
    repeat first
      | simp [buy, aget, aset, List.find?]
      | norm_num [buy, aget, aset, List.find?]
  · rw [dtSim2, h2]
    repeat first
      | simp [buy, aget, aset, List.find?]
      | norm_num [buy, aget, aset, List.find?]
  · rw [dtSim3, h3]
    repeat first
      | simp [buy, aget, aset, List.find?]
      | norm_num [buy, aget, aset, List.find?]
  · simp only [dtSimNextDay]
    rw [h4]
    simp only [dtSim3]
    rw [h3]
  · simp only [dtSimNextDay]
    rw [h4]
  · simp only [dtSimNextDay]
    rw [h4]
    repeat first
      | simp [buy, aget, aset, List.find?]
      | norm_num [buy, aget, aset, List.find?]

/-- C7: in custom mode, once the consumed weeks reach the configured
budget, `updatePrices` returns without touching the state: every
further tick — any noise, any time-skip — leaves prices, history and
the simulated date exactly as they are. -/
theorem custom_budget_freezes_session (s : EnhancedSimulator)
    (hmode : s.config.mode = .custom)
    (hreached : (s.config.weeks : ℤ) ≤
      (getDayCount s - s.modeState.startDayCount).fdiv 7)
    (ticks : List ((String → TickNoise) × ℕ)) :
    ticks.foldl (fun t p => updatePrices t p.1 p.2) s = s := by
  have hex : customExhausted s = true := by
    have hmax : max ((s.config.weeks : ℤ) -
        (getDayCount s - s.modeState.startDayCount).fdiv 7) 0 ≤ 0 :=
      max_le (by omega) le_rfl
    simp [customExhausted, weeksRemaining, hmode, hmax]
  have hstep : ∀ noise tsm, updatePrices s noise tsm = s := by
    intro noise tsm
    simp [updatePrices, hex]
  induction ticks with
  | nil => rfl
  | cons hd tl ih =>
    simp only [List.foldl_cons, hstep]
    exact ih

/-- Witness for C7 at a concrete exhausted session and a concrete
two-day tick. -/
theorem custom_budget_freezes_session_witness :
    customDoneSim.config.mode = .custom ∧
    ((customDoneSim.config.weeks : ℤ) ≤
      (getDayCount customDoneSim - customDoneSim.modeState.startDayCount).fdiv 7) ∧
    [((calmNoise, 2) : (String → TickNoise) × ℕ)].foldl
      (fun t p => updatePrices t p.1 p.2) customDoneSim = customDoneSim :=
  ⟨by simp [customDoneSim, mkSimulator, initializeStocks, initializeModeState,
      getDayCount, demoCatalog],
   by simp [customDoneSim, mkSimulator, initializeStocks, initializeModeState,
      getDayCount, demoCatalog, Int.fdiv],
   custom_budget_freezes_session customDoneSim
    (by simp [customDoneSim, mkSimulator, initializeStocks, initializeModeState,
      getDayCount, demoCatalog])
    (by simp [customDoneSim, mkSimulator, initializeStocks, initializeModeState,
      getDayCount, demoCatalog, Int.fdiv]) _⟩

/-- C2, counterexample: the claim says an order update is delivered
only to subscribers of the owning session.  `broadcastOrderUpdate`
iterates over every connected socket, so a client that owns no bot and
subscribed to no channel still receives the update for `bot_1`. -/
theorem order_update_reaches_nonowner :
    strangerClient.clientId ∈
      broadcastOrderUpdate [strangerClient] "order_1000" demoOrder ∧
    strangerClient.ownedBots = [] ∧
    strangerClient.subscribedChannels = [] := by
  refine ⟨?_, rfl, rfl⟩
  simp [broadcastOrderUpdate, strangerClient]

/-- C2, amended: on each filled order the update frame is sent to every
client whose socket is open, regardless of subscriptions or of which
session owns the order. -/
theorem order_update_broadcast_all_open (clients : List WsClient)
    (orderId : String) (order : BotOrder) (c : WsClient)
    (hc : c ∈ clients) (hopen : c.readyStateOpen = true) :
    c.clientId ∈ broadcastOrderUpdate clients orderId order := by
  simp only [broadcastOrderUpdate, List.mem_map]
  exact ⟨c, List.mem_filter.mpr ⟨hc, hopen⟩, rfl⟩

/-- Witness for the amended C2 theorem on a concrete client list. -/
theorem order_update_broadcast_all_open_witness :
    strangerClient ∈ [strangerClient] ∧
    strangerClient.readyStateOpen = true ∧
    strangerClient.clientId ∈
      broadcastOrderUpdate [strangerClient] "order_1000" demoOrder :=
  ⟨List.mem_singleton.mpr rfl, rfl,
   order_update_broadcast_all_open [strangerClient] "order_1000" demoOrder
     strangerClient (List.mem_singleton.mpr rfl) rfl⟩

/-- The channel a client adds always ends up in its subscription set. -/
theorem mem_addChannel (l : List String) (c : String) : c ∈ addChannel l c := by
  by_cases h : c ∈ l <;> simp [addChannel, h]

/-- C3, counterexample: the claim says a push connection without a
resolvable bearer credential is rejected at handshake time and that
chat subscriptions require the tester or admin role.  The handshake
handler accepts a credential-less connection, and `handleSubscribe`
registers a chat subscription for a client with no role at all. -/
theorem push_handshake_accepts_credentialless :
    wsConnectionAccepted none = true ∧
    (handleSubscribe [] "c1" "chat" none).confirmed = true ∧
    "chat" ∈ (aget (handleSubscribe [] "c1" "chat" none).subs "c1").getD [] := by
  refine ⟨rfl, rfl, ?_⟩
  simp [handleSubscribe, addChannel, aget, aset]

/-- C3, amended: the push channel performs no authentication at all —
every handshake is accepted whatever credential is presented, and every
subscription (the chat channel included) is registered and confirmed
whatever the subscriber role. -/
theorem push_channel_never_authenticates (cred : Option String)
    (subs : List (String × List String)) (clientId channel : String)
    (role : Option String) :
    wsConnectionAccepted cred = true ∧
    (handleSubscribe subs clientId channel role).confirmed = true ∧
    channel ∈ (aget (handleSubscribe subs clientId channel role).subs clientId).getD [] := by
  refine ⟨rfl, rfl, ?_⟩
  simp only [handleSubscribe, aget_aset_self, Option.getD_some]
  exact mem_addChannel _ _

/-- C9, counterexample: the claim says that after deleting the active
preset, `activePreset` is the lexicographically smallest remaining
name.  Deleting the active `carol` leaves `beta` and `alpha`; the code
picks `Object.keys(...)[0]` — the first key in insertion order, which
is `beta`, not the smaller `alpha`. -/
theorem deletePreset_active_not_lex_smallest :
    (deletePreset savesRec "carol").map SaveRecord.activePreset =
      some (some "beta") ∧
    "alpha" ∈ (aerase savesRec.presets "carol").map Prod.fst ∧
    ("alpha" : String) < "beta" := by
  refine ⟨by decide, by decide, ?_⟩
  simp only [String.lt_iff_toList_lt]
  decide

/-- C9, amended: when `deletePreset` removes the preset that was
active, `activePreset` becomes the FIRST remaining preset name in
object insertion order, or null when no presets remain. -/
theorem deletePreset_active_first_in_insertion_order (rec : SaveRecord)
    (name : String) (slot : PresetSlot)
    (hmem : aget rec.presets name = some slot)
    (hactive : rec.activePreset = some name) :
    deletePreset rec name =
      some { rec with
        presets := aerase rec.presets name
        activePreset := ((aerase rec.presets name).map Prod.fst).head? } ∧
    (aerase rec.presets name = [] →
      (deletePreset rec name).map SaveRecord.activePreset = some none) := by
  constructor
  · simp [deletePreset, hmem, hactive]
  · intro hnil
    simp [deletePreset, hmem, hactive, hnil]

/-- Witness for the amended C9 theorem on the concrete record. -/
theorem deletePreset_active_first_in_insertion_order_witness :
    aget savesRec.presets "carol" = some ⟨"g3", 3, 3⟩ ∧
    savesRec.activePreset = some "carol" ∧
    (deletePreset savesRec "carol" =
      some { savesRec with
        presets := aerase savesRec.presets "carol"
        activePreset := ((aerase savesRec.presets "carol").map Prod.fst).head? } ∧
     (aerase savesRec.presets "carol" = [] →
      (deletePreset savesRec "carol").map SaveRecord.activePreset = some none)) :=
  ⟨by decide, rfl,
   deletePreset_active_first_in_insertion_order savesRec "carol" ⟨"g3", 3, 3⟩
     (by decide) rfl⟩

/-- C8, counterexample: the claim says `getMessages(limit, offset)`
returns the window that skips the `offset` newest messages and that
`limit` is clamped to [1, 100].  On a three-message log, limit 1 and
offset 1 should yield the second-newest message; the code returns the
newest one (the offset is swallowed by the double `slice`).  And with
limit 0 — which a [1, 100] clamp would raise to 1 — the code returns
the whole log. -/
theorem chat_pagination_ignores_offset_cx :
    (getInMemoryMessages [msgA, msgB, msgC] 1 1).1 = [msgC] ∧
    msgC ≠ msgB ∧
    (getInMemoryMessages [msgA, msgB] 0 0).1.length = 2 := by
  decide

theorem jsSliceLast_length_le {α : Type} (m : ℕ) (hm : 1 ≤ m) (l : List α) :
    (jsSliceLast m l).length ≤ m := by
  rw [jsSliceLast, if_neg (by omega)]
  simp only [List.length_drop]
  omega

theorem jsSliceLast_jsSliceLast {α : Type} (m n : ℕ) (hm : 1 ≤ m)
    (hmn : m ≤ n) (l : List α) :
    jsSliceLast m (jsSliceLast n l) = jsSliceLast m l := by
  have hm0 : m ≠ 0 := by omega
  have hn0 : n ≠ 0 := by omega
  simp only [jsSliceLast, if_neg hm0, if_neg hn0, List.length_drop,
    List.drop_drop]
  congr 1
  omega

/-- C8, amended: for limit ≥ 1, the in-memory read returns the newest
`min(limit, total)` messages of the log in ascending-timestamp order —
the offset argument has no effect at all — together with the correct
total; the limit is not clamped. -/
theorem chat_pagination_offset_has_no_effect (log : List ChatMessage)
    (limit offset : ℕ) (hlimit : 1 ≤ limit) :
    getInMemoryMessages log limit offset = getInMemoryMessages log limit 0 ∧
    (getInMemoryMessages log limit offset).2 = log.length ∧
    (getInMemoryMessages log limit offset).1.length ≤ limit := by
  refine ⟨?_, rfl, ?_⟩
  · simp only [getInMemoryMessages]
    rw [jsSliceLast_jsSliceLast limit (limit + offset) hlimit (by omega),
        jsSliceLast_jsSliceLast limit (limit + 0) hlimit (by omega)]
  · simp only [getInMemoryMessages]
    rw [jsSliceLast_jsSliceLast limit (limit + offset) hlimit (by omega)]
    exact jsSliceLast_length_le limit hlimit _

/-- Witness for the amended C8 theorem on a concrete log. -/
theorem chat_pagination_offset_has_no_effect_witness :
    1 ≤ 1 ∧
    (getInMemoryMessages [msgA, msgB, msgC] 1 1 =
       getInMemoryMessages [msgA, msgB, msgC] 1 0 ∧
     (getInMemoryMessages [msgA, msgB, msgC] 1 1).2 = 3 ∧
     (getInMemoryMessages [msgA, msgB, msgC] 1 1).1.length ≤ 1) :=
  ⟨le_refl 1,
   chat_pagination_offset_has_no_effect [msgA, msgB, msgC] 1 1 (le_refl 1)⟩

theorem aget_eq_none_of_not_mem {α : Type} (l : List (String × α)) (key : String)
    (h : key ∉ l.map Prod.fst) : aget l key = none := by
  induction l with
  | nil => rfl
  | cons hd tl ih =>
    obtain ⟨k, w⟩ := hd
    simp only [List.map_cons, List.mem_cons] at h
    push_neg at h
    have hk : ¬k = key := fun he => h.1 he.symm
    simp [aget, hk, ih h.2]

theorem aget_aerase_self_of_nodup {α : Type} (l : List (String × α)) (key : String)
    (h : (l.map Prod.fst).Nodup) : aget (aerase l key) key = none := by
  induction l with
  | nil => rfl
  | cons hd tl ih =>
    obtain ⟨k, w⟩ := hd
    simp only [List.map_cons, List.nodup_cons] at h
    by_cases hk : k = key
    · subst hk
      simp [aerase, aget_eq_none_of_not_mem tl k h.1]
    · simp [aerase, aget, hk, ih h.2]

/-- C5, counterexample: the claim says a sell of q shares reduces the
stored `totalCostBasis` by `(totalCostBasis / quantity_before) × q`.
Selling 1 of 2 shares (basis 20) should leave basis 10; the bot-order
path leaves the stored `costBasis` untouched at 20. -/
theorem botSell_costBasis_not_average_cx :
    (aget (placeOrder botSellPortfolio 10 "AAPL" .sell 1 none).1.holdings
        "AAPL").map ServerHolding.costBasis = some 20 ∧
    (20 : ℚ) - 20 / 2 * 1 = 10 ∧
    (10 : ℚ) ≠ 20 := by
  refine ⟨?_, by norm_num, by norm_num⟩
  repeat first
    | simp [placeOrder, botSellPortfolio, aget, aset, aerase]
    | norm_num [placeOrder, botSellPortfolio, aget, aset, aerase]

/-- C5, amended: a filled sell on the bot-order path reduces the
position quantity by q, leaves the stored `costBasis` unchanged, and
removes the entry exactly when the resulting quantity is 0; the
average-cost reduction `(costBasis / quantity_before) × q` is applied
only in the recomputation `getPortfolioDetails` derives from the trade
log. -/
theorem botSell_keeps_costBasis (p : ServerPortfolio) (mp : ℚ) (sym : String)
    (q : ℚ) (h : ServerHolding) (ts : List Trade) (cb sh : ℚ)
    (hnodup : (p.holdings.map Prod.fst).Nodup)
    (hget : aget p.holdings sym = some h)
    (hq : q ≤ h.quantity)
    (hcb : costBasisFromTrades ts sym = (cb, sh)) :
    (placeOrder p mp sym .sell q none).2.filled = true ∧
    (placeOrder p mp sym .sell q none).1.cash
      = p.cash + (mp * q - mp * q * (1/1000)) ∧
    (if h.quantity - q = 0 then
      aget (placeOrder p mp sym .sell q none).1.holdings sym = none
    else
      aget (placeOrder p mp sym .sell q none).1.holdings sym
        = some { h with quantity := h.quantity - q }) ∧
    costBasisFromTrades (ts ++ [⟨.SELL, sym, q, mp, 0⟩]) sym
      = (cb - cb / sh * q, sh - q) := by
  refine ⟨?_, ?_, ?_, ?_⟩
  · simp [placeOrder, hget, hq]
  · simp [placeOrder, hget, hq]
  · by_cases h0 : h.quantity - q = 0
    · rw [if_pos h0]
      simp [placeOrder, hget, hq, h0]
      rw [aerase_aset_present p.holdings sym h _ hget]
      exact aget_aerase_self_of_nodup p.holdings sym hnodup
    · rw [if_neg h0]
      simp [placeOrder, hget, hq, h0, aget_aset_self]
  · have hsplit : costBasisFromTrades (ts ++ [⟨.SELL, sym, q, mp, 0⟩]) sym
        = costBasisFold (costBasisFromTrades ts sym) ⟨.SELL, sym, q, mp, 0⟩ := by
      simp [costBasisFromTrades, List.filter_append, List.foldl_append]
    rw [hsplit, hcb]
    simp [costBasisFold]

/-- Witness for the amended C5 theorem: selling 1 of 2 AAPL shares. -/
theorem botSell_keeps_costBasis_witness :
    (botSellPortfolio.holdings.map Prod.fst).Nodup ∧
    aget botSellPortfolio.holdings "AAPL" = some ⟨"AAPL", 2, 20, 10⟩ ∧
    ((1 : ℚ) ≤ (⟨"AAPL", 2, 20, 10⟩ : ServerHolding).quantity) ∧
    costBasisFromTrades [⟨.BUY, "AAPL", 2, 10, 0⟩] "AAPL" = (20, 2) ∧
    ((placeOrder botSellPortfolio 10 "AAPL" .sell 1 none).2.filled = true ∧
     (placeOrder botSellPortfolio 10 "AAPL" .sell 1 none).1.cash
       = botSellPortfolio.cash + (10 * 1 - 10 * 1 * (1/1000)) ∧
     (if (⟨"AAPL", 2, 20, 10⟩ : ServerHolding).quantity - 1 = 0 then
       aget (placeOrder botSellPortfolio 10 "AAPL" .sell 1 none).1.holdings "AAPL" = none
     else
       aget (placeOrder botSellPortfolio 10 "AAPL" .sell 1 none).1.holdings "AAPL"
         = some { (⟨"AAPL", 2, 20, 10⟩ : ServerHolding) with
             quantity := (⟨"AAPL", 2, 20, 10⟩ : ServerHolding).quantity - 1 }) ∧
     costBasisFromTrades
         ([⟨.BUY, "AAPL", 2, 10, 0⟩] ++ [⟨.SELL, "AAPL", 1, 10, 0⟩]) "AAPL"
       = (20 - 20 / 2 * 1, 2 - 1)) :=
  ⟨by decide,
   by simp [botSellPortfolio, aget],
   by norm_num,
   by repeat first
      | simp [costBasisFromTrades, costBasisFold, List.filter]
      | norm_num [costBasisFromTrades, costBasisFold, List.filter],
   botSell_keeps_costBasis botSellPortfolio 10 "AAPL" 1 ⟨"AAPL", 2, 20, 10⟩
     [⟨.BUY, "AAPL", 2, 10, 0⟩] 20 2 (by decide)
     (by simp [botSellPortfolio, aget]) (by norm_num)
     (by repeat first
        | simp [costBasisFromTrades, costBasisFold, List.filter]
        | norm_num [costBasisFromTrades, costBasisFold, List.filter])⟩

/-! ## C6: buy-then-sell round trip -/

/-- Inversion for a successful simulator buy: the stock was found, the
cash and day-trader gates passed, and the post-state is the mutated
record. -/
theorem buy_success_inv (s : EnhancedSimulator) (sym : String) (q : ℚ)
    (hbuy : (buy s sym q).2.success = true) :
    ∃ stock, s.stocks.find? (fun st => st.symbol == sym) = some stock ∧
      ¬s.cash < stock.price * q ∧
      ¬(s.config.mode = .daytrader ∧
        s.modeState.maxDayTrades ≤ s.modeState.totalDayTrades) ∧
      (buy s sym q).1 =
        { s with
            cash := s.cash - stock.price * q
            holdings := aset s.holdings sym ((aget s.holdings sym).getD 0 + q)
            modeState :=
              if s.config.mode = .daytrader then
                { s.modeState with
                    totalDayTrades := s.modeState.totalDayTrades + 1 }
              else s.modeState
            trades := s.trades ++ [⟨.BUY, sym, q, stock.price, s.simDay⟩] } := by
  rcases hfind : s.stocks.find? (fun st => st.symbol == sym) with _ | stock
  · simp [buy, hfind] at hbuy
  · refine ⟨stock, hfind, ?_⟩
    by_cases hcash : s.cash < stock.price * q
    · simp [buy, hfind, hcash] at hbuy
    · by_cases hdt : s.config.mode = .daytrader ∧
          s.modeState.maxDayTrades ≤ s.modeState.totalDayTrades
      · simp [buy, hfind, hcash, hdt] at hbuy
      · refine ⟨hcash, hdt, ?_⟩
        simp [buy, hfind, hcash, hdt]

/-- A simulator sell that passes the share check mutates cash and the
holding as written, whether or not the day-trader cap then rejects the
order. -/
theorem sell_exec (s : EnhancedSimulator) (sym : String) (q : ℚ) (stock : Stock)
    (hfind : s.stocks.find? (fun st => st.symbol == sym) = some stock)
    (hheld : ¬(aget s.holdings sym).getD 0 < q) :
    (sell s sym q).1.cash = s.cash + stock.price * q ∧
    (sell s sym q).1.holdings =
      (if (aget s.holdings sym).getD 0 - q = 0 then
        aerase (aset s.holdings sym ((aget s.holdings sym).getD 0 - q)) sym
      else aset s.holdings sym ((aget s.holdings sym).getD 0 - q)) := by
  by_cases hdt : s.config.mode = .daytrader ∧
      s.modeState.maxDayTrades ≤ s.modeState.totalDayTrades
  · simp [sell, hfind, hheld, hdt]
  · simp [sell, hfind, hheld, hdt]

/-- Inversion for a filled bot buy: admission passed and the post-state
is the mutated portfolio. -/
theorem botBuy_filled_inv (p : ServerPortfolio) (mp : ℚ) (sym : String) (q : ℚ)
    (hfill : (placeOrder p mp sym .buy q none).2.filled = true) :
    mp * q + mp * q * (1/1000) ≤ p.cash ∧
    (placeOrder p mp sym .buy q none).1 =
      { cash := p.cash - (mp * q + mp * q * (1/1000))
        holdings :=
          match aget p.holdings sym with
          | some h => aset p.holdings sym
              { h with quantity := h.quantity + q,
                       costBasis := h.costBasis + mp * q }
          | none => aset p.holdings sym ⟨sym, q, mp * q, mp⟩ } := by
  by_cases hc : mp * q + mp * q * (1/1000) ≤ p.cash
  · refine ⟨hc, ?_⟩
    rw [one_div] at hc
    simp [placeOrder, hc]
  · rw [one_div] at hc
    simp [placeOrder, hc] at hfill

/-- A filled bot sell mutates cash and the holding as written. -/
theorem botSell_exec (p : ServerPortfolio) (mp : ℚ) (sym : String) (q : ℚ)
    (h : ServerHolding) (hget : aget p.holdings sym = some h)
    (hq : q ≤ h.quantity) :
    (placeOrder p mp sym .sell q none).2.filled = true ∧
    (placeOrder p mp sym .sell q none).1.cash
      = p.cash + (mp * q - mp * q * (1/1000)) ∧
    (placeOrder p mp sym .sell q none).1.holdings =
      (if h.quantity - q = 0 then
        aerase (aset p.holdings sym { h with quantity := h.quantity - q }) sym
      else aset p.holdings sym { h with quantity := h.quantity - q }) := by
  refine ⟨?_, ?_, ?_⟩ <;> simp [placeOrder, hget, hq]

/-- C6, amended: with an unchanged price in between, `buy(s,q)` then
`sell(s,q)` on the simulator path restores cash and holdings exactly
(there is no commission there); on the bot-order path the sell also
fills, cash ends exactly `2 × 0.1% of notional` lower, and the held
QUANTITY of the symbol is restored — the stored cost basis, however, is
not part of this statement because it is not restored when a position
already existed (see the counterexample). -/
theorem buy_sell_roundtrip
    (s : EnhancedSimulator) (sym : String) (q : ℚ)
    (hpos : ∀ kv ∈ s.holdings, 0 < kv.2)
    (hbuy : (buy s sym q).2.success = true)
    (p : ServerPortfolio) (mp : ℚ) (q2 : ℚ)
    (hq2 : 0 < q2)
    (hqty : ∀ kv ∈ p.holdings, 0 < kv.2.quantity)
    (hfill : (placeOrder p mp sym .buy q2 none).2.filled = true) :
    ((sell (buy s sym q).1 sym q).1.cash = s.cash ∧
     (sell (buy s sym q).1 sym q).1.holdings = s.holdings) ∧
    ((placeOrder (placeOrder p mp sym .buy q2 none).1 mp sym .sell q2 none).2.filled
        = true ∧
     (placeOrder (placeOrder p mp sym .buy q2 none).1 mp sym .sell q2 none).1.cash
        = p.cash - 2 * (mp * q2 * (1/1000)) ∧
     (aget (placeOrder (placeOrder p mp sym .buy q2 none).1 mp sym
         .sell q2 none).1.holdings sym).map ServerHolding.quantity
        = (aget p.holdings sym).map ServerHolding.quantity) := by
  constructor
  · obtain ⟨stock, hfind, hcash, hdt, hstate⟩ := buy_success_inv s sym q hbuy
    have hfind1 : (buy s sym q).1.stocks.find? (fun st => st.symbol == sym)
        = some stock := by
      rw [hstate]
      exact hfind
    have hv0 : 0 ≤ (aget s.holdings sym).getD 0 := by
      rcases hv : aget s.holdings sym with _ | v
      · simp
      · simpa using le_of_lt (hpos (sym, v) (aget_mem _ _ _ hv))
    have hhold1 : aget (buy s sym q).1.holdings sym
        = some ((aget s.holdings sym).getD 0 + q) := by
      rw [hstate]
      exact aget_aset_self _ _ _
    have hheld : ¬(aget (buy s sym q).1.holdings sym).getD 0 < q := by
      rw [hhold1]
      simp only [Option.getD_some, not_lt]
      linarith
    obtain ⟨hc2, hh2⟩ := sell_exec (buy s sym q).1 sym q stock hfind1 hheld
    constructor
    · rw [hc2, hstate]
      ring
    · rw [hh2]
      simp only [hhold1, Option.getD_some]
      have hvq : (aget s.holdings sym).getD 0 + q - q
          = (aget s.holdings sym).getD 0 := by ring
      rw [hvq]
      have hholds : (buy s sym q).1.holdings
          = aset s.holdings sym ((aget s.holdings sym).getD 0 + q) := by
        rw [hstate]
      rcases hv : aget s.holdings sym with _ | v
      · simp only [hv, Option.getD_none] at hholds ⊢
        simp only [if_true, eq_self_iff_true, ite_true]
        rw [hholds, aset_aset, aget_none_aset _ _ _ hv,
          aerase_append_absent _ _ _ hv]
      · have hvpos : 0 < v := hpos (sym, v) (aget_mem _ _ _ hv)
        simp only [hv, Option.getD_some] at hholds ⊢
        rw [if_neg (by linarith), hholds, aset_aset, aset_eq_self _ _ _ hv]
  · obtain ⟨hcadm, hp1⟩ := botBuy_filled_inv p mp sym q2 hfill
    rcases hh : aget p.holdings sym with _ | h
    · have hhold1 : aget (placeOrder p mp sym .buy q2 none).1.holdings sym
          = some ⟨sym, q2, mp * q2, mp⟩ := by
        rw [hp1]
        simp only [hh]
        exact aget_aset_self _ _ _
      obtain ⟨hf2, hc2, hh2⟩ := botSell_exec (placeOrder p mp sym .buy q2 none).1
        mp sym q2 ⟨sym, q2, mp * q2, mp⟩ hhold1 le_rfl
      refine ⟨hf2, ?_, ?_⟩
      · rw [hc2, hp1]
        ring
      · rw [hh2]
        simp only [sub_self, if_pos rfl]
        rw [aerase_aset_present _ _ _ _ hhold1]
        have hp1h : (placeOrder p mp sym .buy q2 none).1.holdings
            = p.holdings ++ [(sym, ⟨sym, q2, mp * q2, mp⟩)] := by
          rw [hp1]
          simp only [hh]
          exact aget_none_aset _ _ _ hh
        rw [hp1h, aerase_append_absent _ _ _ hh]
        simp [hh]
    · have hhpos : 0 < h.quantity := hqty (sym, h) (aget_mem _ _ _ hh)
      have hhold1 : aget (placeOrder p mp sym .buy q2 none).1.holdings sym
          = some { h with quantity := h.quantity + q2,
                          costBasis := h.costBasis + mp * q2 } := by
        rw [hp1]
        simp only [hh]
        exact aget_aset_self _ _ _
      obtain ⟨hf2, hc2, hh2⟩ := botSell_exec (placeOrder p mp sym .buy q2 none).1
        mp sym q2 _ hhold1 (by simp; linarith)
      refine ⟨hf2, ?_, ?_⟩
      · rw [hc2, hp1]
        ring
      · rw [hh2]
        rw [if_neg (by simp; linarith)]
        simp [aget_aset_self, hh]

/-- C6, counterexample: the claim says holdings return to their prior
state after `buy(s,q); sell(s,q)`.  On the bot path with a
pre-existing position, the buy adds its notional to the stored
`costBasis` and the sell never subtracts it: starting from 1 share with
basis 10, buying and selling one share at price 10 ends with basis 20,
so the holdings map is not restored. -/
theorem bot_roundtrip_costBasis_inflated_cx :
    (aget (placeOrder (placeOrder botPriorPortfolio 10 "AAPL" .buy 1 none).1 10
        "AAPL" .sell 1 none).1.holdings "AAPL").map ServerHolding.costBasis
      = some 20 ∧
    (aget botPriorPortfolio.holdings "AAPL").map ServerHolding.costBasis
      = some 10 ∧
    (placeOrder (placeOrder botPriorPortfolio 10 "AAPL" .buy 1 none).1 10
        "AAPL" .sell 1 none).1.holdings ≠ botPriorPortfolio.holdings := by
  refine ⟨?_, ?_, ?_⟩ <;>
    repeat first
      | simp [placeOrder, botPriorPortfolio, aget, aset, aerase]
      | norm_num [placeOrder, botPriorPortfolio, aget, aset, aerase]

/-- Witness for the amended C6 theorem: buy 2 then sell 2 on the
simulator, buy 1 then sell 1 at price 10 on the bot path. -/
theorem buy_sell_roundtrip_witness :
    (∀ kv ∈ classicSim.holdings, 0 < kv.2) ∧
    (buy classicSim "AAPL" 2).2.success = true ∧
    (0 : ℚ) < 1 ∧
    (∀ kv ∈ botEmptyPortfolio.holdings, 0 < kv.2.quantity) ∧
    (placeOrder botEmptyPortfolio 10 "AAPL" .buy 1 none).2.filled = true ∧
    (((sell (buy classicSim "AAPL" 2).1 "AAPL" 2).1.cash = classicSim.cash ∧
      (sell (buy classicSim "AAPL" 2).1 "AAPL" 2).1.holdings
        = classicSim.holdings) ∧
     ((placeOrder (placeOrder botEmptyPortfolio 10 "AAPL" .buy 1 none).1 10
         "AAPL" .sell 1 none).2.filled = true ∧
      (placeOrder (placeOrder botEmptyPortfolio 10 "AAPL" .buy 1 none).1 10
          "AAPL" .sell 1 none).1.cash
        = botEmptyPortfolio.cash - 2 * (10 * 1 * (1/1000)) ∧
      (aget (placeOrder (placeOrder botEmptyPortfolio 10 "AAPL" .buy 1 none).1
          10 "AAPL" .sell 1 none).1.holdings "AAPL").map ServerHolding.quantity
        = (aget botEmptyPortfolio.holdings "AAPL").map ServerHolding.quantity)) :=
  ⟨by simp [classicSim],
   by repeat first
      | simp [buy, classicSim, aget, aset, List.find?]
      | norm_num [buy, classicSim, aget, aset, List.find?],
   by norm_num,
   by simp [botEmptyPortfolio],
   by repeat first
      | simp [placeOrder, botEmptyPortfolio, aget, aset]
      | norm_num [placeOrder, botEmptyPortfolio, aget, aset],
   buy_sell_roundtrip classicSim "AAPL" 2 (by simp [classicSim])
     (by repeat first
        | simp [buy, classicSim, aget, aset, List.find?]
        | norm_num [buy, classicSim, aget, aset, List.find?])
     botEmptyPortfolio 10 1 (by norm_num) (by simp [botEmptyPortfolio])
     (by repeat first
        | simp [placeOrder, botEmptyPortfolio, aget, aset]
        | norm_num [placeOrder, botEmptyPortfolio, aget, aset])⟩

@[simp] theorem applyTicks_nil (s : EnhancedSimulator) : applyTicks s [] = s := rfl

@[simp] theorem applyTicks_cons (s : EnhancedSimulator)
    (hd : (String → TickNoise) × ℕ) (tl : List ((String → TickNoise) × ℕ)) :
    applyTicks s (hd :: tl) = applyTicks (updatePrices s hd.1 hd.2) tl := rfl

/-- Every tick floors the new price at 0.01, so it is positive. -/
theorem tickPrice_pos (hist : List ℚ) (stock : Stock) (n : TickNoise)
    (tsm : ℕ) : 0 < tickPrice hist stock n tsm := by
  simp only [tickPrice]
  exact lt_of_lt_of_le (by norm_num) (le_max_right _ _)

/-- The re-pricing fold preserves the per-stock invariant and the list
of symbols, provided the symbols are distinct. -/
theorem updateFold_ok (noise : String → TickNoise) (tsm : ℕ) :
    ∀ (todo acc : List Stock) (hist : List (String × List ℚ)),
      (((acc ++ todo).map (fun st => st.symbol)).Nodup) →
      (∀ st ∈ acc, stockHistOk hist st) →
      (∀ st ∈ todo, stockHistOk hist st) →
      (∀ st ∈ (todo.foldl (updateStep noise tsm) (acc, hist)).1,
          stockHistOk (todo.foldl (updateStep noise tsm) (acc, hist)).2 st) ∧
      (todo.foldl (updateStep noise tsm) (acc, hist)).1.map (fun st => st.symbol)
        = (acc ++ todo).map (fun st => st.symbol) := by
  intro todo
  induction todo with
  | nil =>
    intro acc hist hnd hacc htodo
    simpa using hacc
  | cons st rest ih =>
    intro acc hist hnd hacc htodo
    have hsme : ((acc ++ st :: rest).map (fun s => s.symbol))
        = acc.map (fun s => s.symbol) ++ st.symbol :: rest.map (fun s => s.symbol) := by
      simp
    rw [hsme] at hnd
    have hdisj := (List.nodup_append.mp hnd).2.2
    have hcons := (List.nodup_append.mp hnd).2.1
    have hanotst : ∀ x ∈ acc, x.symbol ≠ st.symbol := by
      intro x hx he
      exact hdisj (List.mem_map_of_mem _ hx) (by simp [he])
    have hrnotst : st.symbol ∉ rest.map (fun s => s.symbol) :=
      (List.nodup_cons.mp hcons).1
    set h := (aget hist st.symbol).getD [] with hh
    set newP := tickPrice h st (noise st.symbol) tsm with hnp
    have hstep : updateStep noise tsm (acc, hist) st
        = (acc ++ [{ st with price := newP }],
           aset hist st.symbol (h ++ [newP])) := rfl
    have hok : stockHistOk hist st := htodo st (List.mem_cons_self _ _)
    have hacc' : ∀ x ∈ acc ++ [{ st with price := newP }],
        stockHistOk (aset hist st.symbol (h ++ [newP])) x := by
      intro x hx
      rcases List.mem_append.mp hx with hxa | hxs
      · have hne : st.symbol ≠ x.symbol := fun he => hanotst x hxa he.symm
        have := hacc x hxa
        unfold stockHistOk at this ⊢
        rw [aget_aset_ne _ _ _ _ hne]
        exact this
      · have hxeq : x = { st with price := newP } := by simpa using hxs
        subst hxeq
        unfold stockHistOk
        rw [aget_aset_self]
        constructor
        · intro p hp
          simp only [Option.getD_some] at hp
          rcases List.mem_append.mp hp with hph | hpn
          · exact hok.1 p hph
          · have : p = newP := by simpa using hpn
            rw [this, hnp]
            exact tickPrice_pos _ _ _ _
        · simp only [Option.getD_some]
          simp [List.getLast?_concat]
    have htodo' : ∀ x ∈ rest,
        stockHistOk (aset hist st.symbol (h ++ [newP])) x := by
      intro x hx
      have hne : st.symbol ≠ x.symbol := by
        intro he
        exact hrnotst (by rw [he]; exact List.mem_map_of_mem _ hx)
      have := htodo x (List.mem_cons_of_mem _ hx)
      unfold stockHistOk at this ⊢
      rw [aget_aset_ne _ _ _ _ hne]
      exact this
    have hnd' : (((acc ++ [{ st with price := newP }]) ++ rest).map
        (fun s : Stock => s.symbol)).Nodup := by
      have heq : ((acc ++ [{ st with price := newP }]) ++ rest).map
            (fun s : Stock => s.symbol)
          = acc.map (fun s : Stock => s.symbol) ++
            st.symbol :: rest.map (fun s : Stock => s.symbol) := by
        simp
      rw [heq]
      exact hnd
    have hrec := ih (acc ++ [{ st with price := newP }])
      (aset hist st.symbol (h ++ [newP])) hnd' hacc' htodo'
    rw [List.foldl_cons, hstep]
    refine ⟨hrec.1, ?_⟩
    rw [hrec.2]
    simp

/-- One tick preserves the invariant and the symbol list. -/
theorem updatePrices_histInv (s : EnhancedSimulator) (noise : String → TickNoise)
    (tsm : ℕ)
    (hnd : (s.stocks.map (fun st => st.symbol)).Nodup) (hinv : histInv s) :
    histInv (updatePrices s noise tsm) ∧
    ((updatePrices s noise tsm).stocks.map (fun st => st.symbol)).Nodup := by
  by_cases hex : customExhausted s = true
  · simp only [updatePrices, if_pos hex]
    exact ⟨hinv, hnd⟩
  · have hfold := updateFold_ok noise tsm s.stocks [] s.priceHistory
      (by simpa using hnd) (by simp) (fun st hst => hinv st hst)
    constructor
    · intro st hst
      simp only [updatePrices, if_neg hex] at hst ⊢
      exact hfold.1 st hst
    · simp only [updatePrices, if_neg hex]
      rw [hfold.2]
      simpa using hnd

/-- Folding the history seed leaves untouched the entries of symbols
not in the stock list. -/
theorem initFold_aget (stocks : List Stock) :
    ∀ (h0 : List (String × List ℚ)) (key : String),
      key ∉ stocks.map (fun st => st.symbol) →
      aget (stocks.foldl (fun h st => aset h st.symbol [st.price]) h0) key
        = aget h0 key := by
  induction stocks with
  | nil =>
    intro h0 key _
    rfl
  | cons hd rest ih =>
    intro h0 key hk
    simp only [List.map_cons, List.mem_cons] at hk
    push_neg at hk
    rw [List.foldl_cons, ih _ _ hk.2, aget_aset_ne _ _ _ _ (Ne.symm hk.1)]

/-- With distinct symbols, the history seed maps every stock to the
one-element list holding its price. -/
theorem initFold_mem (stocks : List Stock) :
    ∀ (h0 : List (String × List ℚ)) (st : Stock), st ∈ stocks →
      (stocks.map (fun s => s.symbol)).Nodup →
      aget (stocks.foldl (fun h s2 => aset h s2.symbol [s2.price]) h0) st.symbol
        = some [st.price] := by
  induction stocks with
  | nil =>
    intro h0 st h
    simp at h
  | cons hd rest ih =>
    intro h0 st hst hnd
    simp only [List.map_cons, List.nodup_cons] at hnd
    rw [List.foldl_cons]
    rcases List.mem_cons.mp hst with rfl | hmem
    · rw [initFold_aget rest _ _ hnd.1]
      exact aget_aset_self _ _ _
    · exact ih _ st hmem hnd.2

/-- The constructed simulator carries the catalog symbols. -/
theorem mkSimulator_stocks_symbols (catalog : List CatalogStock)
    (config : SimConfig) :
    (mkSimulator catalog config).stocks.map (fun st => st.symbol)
      = catalog.map (fun c => c.symbol) := by
  by_cases hc : config.mode = .custom <;>
    simp [mkSimulator, initializeStocks, hc]

/-- The freshly constructed simulator satisfies the invariant when the
catalog has positive base prices and distinct symbols. -/
theorem mkSimulator_histInv (catalog : List CatalogStock) (config : SimConfig)
    (hpos : ∀ c ∈ catalog, 0 < c.basePrice)
    (hnd : (catalog.map (fun c => c.symbol)).Nodup) :
    histInv (mkSimulator catalog config) := by
  intro st hst
  have hsto : (mkSimulator catalog config).stocks
      = (initializeStocks catalog config).1 := by
    by_cases hc : config.mode = .custom <;> simp [mkSimulator, hc]
  have hph : (mkSimulator catalog config).priceHistory
      = (initializeStocks catalog config).2 := by
    by_cases hc : config.mode = .custom <;> simp [mkSimulator, hc]
  rw [hsto] at hst
  have hnd2 : ((initializeStocks catalog config).1.map
      (fun s => s.symbol)).Nodup := by
    simpa [initializeStocks, List.map_map, Function.comp] using hnd
  have hget := initFold_mem (initializeStocks catalog config).1 [] st hst hnd2
  have hfold : (initializeStocks catalog config).2
      = (initializeStocks catalog config).1.foldl
          (fun h s2 => aset h s2.symbol [s2.price]) [] := by
    simp [initializeStocks]
  unfold stockHistOk
  rw [hph, hfold, hget]
  constructor
  · intro p hp
    simp only [Option.getD_some, List.mem_singleton] at hp
    subst hp
    simp only [initializeStocks, List.mem_map] at hst
    obtain ⟨c, hc, hceq⟩ := hst
    rw [← hceq]
    exact hpos c hc
  · simp

/-- The distinct-symbols case: when the catalog symbols are pairwise
distinct, after any number of ticks every entry of every price history
is strictly positive and each stock price equals the last entry of its
history.  The shipped `REAL_STOCKS` catalog violates the premise (NVDA
appears twice), so this lemma alone does not settle the invariant for
the program. -/
theorem price_history_positive_and_current (catalog : List CatalogStock)
    (config : SimConfig) (ticks : List ((String → TickNoise) × ℕ))
    (hpos : ∀ c ∈ catalog, 0 < c.basePrice)
    (hnd : (catalog.map (fun c => c.symbol)).Nodup) :
    histInv (applyTicks (mkSimulator catalog config) ticks) := by
  suffices h : ∀ (l : List ((String → TickNoise) × ℕ)) (s : EnhancedSimulator),
      histInv s → (s.stocks.map (fun st => st.symbol)).Nodup →
      histInv (applyTicks s l) ∧
        ((applyTicks s l).stocks.map (fun st => st.symbol)).Nodup by
    exact (h ticks (mkSimulator catalog config)
      (mkSimulator_histInv catalog config hpos hnd)
      (by rw [mkSimulator_stocks_symbols]; exact hnd)).1
  intro l
  induction l with
  | nil =>
    intro s h1 h2
    exact ⟨h1, h2⟩
  | cons hd tl ih =>
    intro s h1 h2
    have hstep := updatePrices_histInv s hd.1 hd.2 h2 h1
    rw [applyTicks_cons]
    exact ih _ hstep.1 hstep.2

/-- Any key-value pair of an updated map is an old pair or the stored
one. -/
theorem mem_aset_cases {α : Type} (l : List (String × α)) (key : String)
    (v : α) (kv : String × α) (h : kv ∈ aset l key v) :
    kv ∈ l ∨ kv = (key, v) := by
  induction l with
  | nil =>
    simp [aset] at h
    exact Or.inr h
  | cons hd tl ih =>
    obtain ⟨k, w⟩ := hd
    by_cases hk : k = key
    · simp only [aset, if_pos hk, List.mem_cons] at h
      rcases h with h1 | h1
      · exact Or.inr (by rw [h1])
      · exact Or.inl (List.mem_cons_of_mem _ h1)
    · simp only [aset, if_neg hk, List.mem_cons] at h
      rcases h with h1 | h1
      · exact Or.inl (by simp [h1])
      · rcases ih h1 with h2 | h2
        · exact Or.inl (List.mem_cons_of_mem _ h2)
        · exact Or.inr h2

/-- Storing an all-positive history list preserves `allHistPos`. -/
theorem allHistPos_aset (hist : List (String × List ℚ)) (key : String)
    (v : List ℚ) (h : allHistPos hist) (hv : ∀ p ∈ v, 0 < p) :
    allHistPos (aset hist key v) := by
  intro kv hkv
  rcases mem_aset_cases hist key v kv hkv with h1 | h1
  · exact h kv h1
  · rw [h1]
    exact hv

/-- Under `allHistPos`, the looked-up history of any symbol is
all-positive. -/
theorem allHistPos_getD (hist : List (String × List ℚ)) (sym : String)
    (h : allHistPos hist) : ∀ p ∈ (aget hist sym).getD [], 0 < p := by
  rcases hv : aget hist sym with _ | l
  · simp
  · simpa using h (sym, l) (aget_mem _ _ _ hv)

/-- The re-pricing fold keeps every history entry positive — no
distinctness of symbols is needed. -/
theorem updateFold_pos (noise : String → TickNoise) (tsm : ℕ) :
    ∀ (todo acc : List Stock) (hist : List (String × List ℚ)),
      allHistPos hist →
      allHistPos (todo.foldl (updateStep noise tsm) (acc, hist)).2 := by
  intro todo
  induction todo with
  | nil =>
    intro acc hist h
    exact h
  | cons st rest ih =>
    intro acc hist h
    rw [List.foldl_cons]
    apply ih
    apply allHistPos_aset _ _ _ h
    intro p hp
    rcases List.mem_append.mp hp with h1 | h1
    · exact allHistPos_getD hist st.symbol h p h1
    · have hp2 : p = tickPrice ((aget hist st.symbol).getD []) st
          (noise st.symbol) tsm := by simpa using h1
      rw [hp2]
      exact tickPrice_pos _ _ _ _

/-- One tick keeps every history entry positive. -/
theorem updatePrices_pos (s : EnhancedSimulator) (noise : String → TickNoise)
    (tsm : ℕ) (h : allHistPos s.priceHistory) :
    allHistPos (updatePrices s noise tsm).priceHistory := by
  by_cases hex : customExhausted s = true
  · simp only [updatePrices, if_pos hex]
    exact h
  · simp only [updatePrices, if_neg hex]
    exact updateFold_pos noise tsm s.stocks [] s.priceHistory h

/-- Seeding the history map with one-element positive lists yields an
all-positive map, duplicates included. -/
theorem initFold_pos (stocks : List Stock) :
    ∀ (h0 : List (String × List ℚ)), allHistPos h0 →
      (∀ st ∈ stocks, 0 < st.price) →
      allHistPos (stocks.foldl (fun h s2 => aset h s2.symbol [s2.price]) h0) := by
  induction stocks with
  | nil =>
    intro h0 h _
    exact h
  | cons hd rest ih =>
    intro h0 h hp
    rw [List.foldl_cons]
    apply ih
    · apply allHistPos_aset _ _ _ h
      intro p hpm
      have : p = hd.price := by simpa using hpm
      rw [this]
      exact hp hd (List.mem_cons_self _ _)
    · intro st hst
      exact hp st (List.mem_cons_of_mem _ hst)

/-- The freshly constructed simulator has an all-positive history map
for any catalog with positive base prices, duplicates included. -/
theorem mkSimulator_pos (catalog : List CatalogStock) (config : SimConfig)
    (hpos : ∀ c ∈ catalog, 0 < c.basePrice) :
    allHistPos (mkSimulator catalog config).priceHistory := by
  have hph : (mkSimulator catalog config).priceHistory
      = (initializeStocks catalog config).1.foldl
          (fun h s2 => aset h s2.symbol [s2.price]) [] := by
    by_cases hc : config.mode = .custom <;> simp [mkSimulator, initializeStocks, hc]
  rw [hph]
  apply initFold_pos
  · intro kv hkv
    simp at hkv
  · intro st hst
    simp only [initializeStocks, List.mem_map] at hst
    obtain ⟨c, hc, hceq⟩ := hst
    rw [← hceq]
    exact hpos c hc

/-- C10, counterexample: the claim promises `price = last(history)` for
every symbol of every session, but the shipped `REAL_STOCKS` catalog
lists NVDA twice, and both entries share the single history list keyed
by the symbol.  After one calm tick over the duplicated-NVDA catalog
the first entry is priced 875.45 × 20001/20000 while the shared
history ends with the second entry's price — momentum alone drives
them apart — so the invariant fails. -/
theorem price_history_duplicate_symbol_cx :
    nvdaDupCatalog.map (fun c => c.symbol) = ["NVDA", "NVDA"] ∧
    nvdaDupTicked.stocks.head?.map Stock.price = some (350197509/400000) ∧
    ((aget nvdaDupTicked.priceHistory "NVDA").getD []).getLast?
      = some (3502027617/4000000) ∧
    ((350197509 : ℚ)/400000 ≠ 3502027617/4000000) ∧
    ¬histInv nvdaDupTicked := by
  have hstate : nvdaDupTicked =
      { config := ⟨25000, .moderate, .classic, .medium, 0⟩
        cash := 25000, holdings := []
        stocks := [⟨"NVDA", "NVIDIA Corp.", .growth, 350197509/400000,
                     17509/20, 7/200⟩,
                   ⟨"NVDA", "NVIDIA (Gaming)", .growth, 3502027617/4000000,
                     17509/20, 7/200⟩]
        priceHistory := [("NVDA",
          [17509/20, 350197509/400000, 3502027617/4000000])]
        simDay := 1, trades := [], initialCapital := 25000
        modeState := {} } := by
    repeat first
      | simp [nvdaDupTicked, nvdaDupSim, nvdaDupCatalog, mkSimulator,
          initializeStocks, initializeModeState, riskMultiplier,
          volatilityReduction, getDayCount, updatePrices, updateStep,
          customExhausted, weeksRemaining, tickPrice, calmNoise, aget, aset]
      | norm_num [nvdaDupTicked, nvdaDupSim, nvdaDupCatalog, mkSimulator,
          initializeStocks, initializeModeState, riskMultiplier,
          volatilityReduction, getDayCount, updatePrices, updateStep,
          customExhausted, weeksRemaining, tickPrice, calmNoise, aget, aset]
  refine ⟨by simp [nvdaDupCatalog], ?_, ?_, by norm_num, ?_⟩
  · rw [hstate]
    rfl
  · rw [hstate]
    simp [aget]
  · intro h
    have hm : (⟨"NVDA", "NVIDIA Corp.", .growth, 350197509/400000,
        17509/20, 7/200⟩ : Stock) ∈ nvdaDupTicked.stocks := by
      rw [hstate]
      simp
    have hlast := (h _ hm).2
    rw [hstate] at hlast
    simp [stockHistOk, aget] at hlast
    norm_num at hlast

/-- C10, amended: after any number of ticks every entry of every price
history is strictly positive, for any catalog with positive base
prices — duplicated symbols included; and when the catalog symbols are
pairwise distinct, the current price of every stock also equals the
last entry of its history.  The shipped catalog duplicates NVDA, so
the last-entry half fails there (see the counterexample) while the
positivity half still holds. -/
theorem price_history_entries_positive_and_last (catalog : List CatalogStock)
    (config : SimConfig) (ticks : List ((String → TickNoise) × ℕ))
    (hpos : ∀ c ∈ catalog, 0 < c.basePrice) :
    allHistPos (applyTicks (mkSimulator catalog config) ticks).priceHistory ∧
    ((catalog.map (fun c => c.symbol)).Nodup →
      histInv (applyTicks (mkSimulator catalog config) ticks)) := by
  constructor
  · suffices h : ∀ (l : List ((String → TickNoise) × ℕ))
        (s : EnhancedSimulator), allHistPos s.priceHistory →
        allHistPos (applyTicks s l).priceHistory by
      exact h ticks _ (mkSimulator_pos catalog config hpos)
    intro l
    induction l with
    | nil =>
      intro s h
      exact h
    | cons hd tl ih =>
      intro s h
      rw [applyTicks_cons]
      exact ih _ (updatePrices_pos s hd.1 hd.2 h)
  · intro hnd
    exact price_history_positive_and_current catalog config ticks hpos hnd

/-- Witness for the amended C10 theorem at the duplicated-NVDA catalog
itself: positivity holds there even though the symbols are not
distinct. -/
theorem price_history_entries_positive_and_last_witness :
    (∀ c ∈ nvdaDupCatalog, 0 < c.basePrice) ∧
    (allHistPos (applyTicks
        (mkSimulator nvdaDupCatalog ⟨25000, .moderate, .classic, .medium, 0⟩)
        [(calmNoise, 1)]).priceHistory ∧
     ((nvdaDupCatalog.map (fun c => c.symbol)).Nodup →
       histInv (applyTicks
         (mkSimulator nvdaDupCatalog ⟨25000, .moderate, .classic, .medium, 0⟩)
         [(calmNoise, 1)]))) :=
  ⟨by
    intro c hc
    simp only [nvdaDupCatalog, List.mem_cons, List.mem_singleton] at hc
    rcases hc with rfl | hc
    · norm_num
    · rcases hc with rfl | hc
      · norm_num
      · simp at hc,
   price_history_entries_positive_and_last nvdaDupCatalog
     ⟨25000, .moderate, .classic, .medium, 0⟩ [(calmNoise, 1)]
     (by
       intro c hc
       simp only [nvdaDupCatalog, List.mem_cons, List.mem_singleton] at hc
       rcases hc with rfl | hc
       · norm_num
       · rcases hc with rfl | hc
         · norm_num
         · simp at hc)⟩
